import Mathlib

/-!
Verification of the market-data utility (`src/core/data_fetcher.py`,
`src/core/data_processor.py`) against its natural-language specification.

The embedding models the Master Store update (`smart_update`), the gap
analyzer (`analyze_gaps`), the schema normalizer (`standardize_dataframe`),
the session filter (`_filter_lunch_break`), and the alignment-engine helpers
(`_apply_forward_fill`, `_add_generic_overlap_flag`, `_generate_preview`).

Conventions of the embedding:
* a data row is a timestamp (seconds since an arbitrary epoch, `Int`) plus an
  abstract payload (`Int`), since the claims only ever compare whole rows;
* `pandas` dataframes become Lean lists of rows (row order preserved) or, for
  the alignment claims, lists of named columns of optional values;
* the network fetcher (`fetch_data`) is an oracle parameter returning
  `Except ε (List Row)`: `.error` models a raised Python exception;
* the parquet file on disk is a `StoreFile`: absent, unreadable (a read
  raises), or readable with contents.
-/

deriving instance DecidableEq for Except

namespace MarketData

/-- One OHLCV bar: its timestamp (`Date` column, seconds) and its payload
(the OHLCV values, abstracted since claims only compare rows wholesale). -/
structure Row where
  date : Int
  val : Int
deriving DecidableEq, Repr

/-- The `Date` column of a dataframe. -/
def dates (rows : List Row) : List Int := rows.map (fun r => r.date)

/-- One day, in seconds (`timedelta(days=1)`). -/
def oneDay : Int := 86400

/-- `df[\x27Date\x27].max()`: `none` models pandas `NaT` on an empty frame. -/
def maxDate (rows : List Row) : Option Int :=
  rows.foldl (fun acc r =>
    match acc with
    | none => some r.date
    | some m => some (max m r.date)) none

/-- Is some row of `l` stamped `t`? (used by `drop_duplicates`). -/
def keySeen (t : Int) (l : List Row) : Bool :=
  l.any (fun r => decide (r.date = t))

/-- `drop_duplicates(subset=[\x27Date\x27], keep=\x27last\x27)`: a row survives iff no
later row carries the same timestamp. -/
def dedupKeepLast : List Row → List Row
  | [] => []
  | r :: rs => if keySeen r.date rs then dedupKeepLast rs else r :: dedupKeepLast rs

/-- Comparison on rows by timestamp, for `sort_values(\x27Date\x27)`. -/
def dateLE (a b : Row) : Prop := a.date ≤ b.date

instance : DecidableRel dateLE := fun a b => Int.decLe a.date b.date

instance : IsTotal Row dateLE := ⟨fun a b => Int.le_total a.date b.date⟩

instance : IsTrans Row dateLE := ⟨fun _ _ _ h h' => Int.le_trans h h'⟩

/-- `sort_values(\x27Date\x27)` (keys are unique when the code sorts, so any
correct comparison sort computes this list). -/
def sortByDate (l : List Row) : List Row := List.insertionSort dateLE l

/-- The merge step of `smart_update`:
`pd.concat([existing, new])`, then `drop_duplicates(subset=[\x27Date\x27],
keep=\x27last\x27)`, then `sort_values(\x27Date\x27)`. -/
def mergeRows (existing newRows : List Row) : List Row :=
  sortByDate (dedupKeepLast (existing ++ newRows))

/-- The parquet file `data/store/{symbol}_{timeframe}.parquet`:
absent, present but raising on read, or readable with contents. -/
inductive StoreFile
  | absent
  | corrupt
  | ok (rows : List Row)
deriving DecidableEq, Repr

/-- What a normally-returning `smart_update` call produced: the dataframe it
returned and the sequence of `to_parquet` writes it performed. -/
structure UpdateResult where
  rows : List Row
  writes : List (List Row)
deriving DecidableEq, Repr

/-- The fetch oracle: `fetch_data(start, end)`. The start is `Option Int`
because the incremental path hands pandas `NaT` (`none`) to `fetch_data`
when the stored frame is empty. `.error e` models a raised exception. -/
def FetchOracle (ε : Type) : Type := Option Int → Int → Except ε (List Row)

/-- The start date of a full-range download: the caller-given `start_date`
when present, else `end_date - timedelta(days=365)`. -/
def fullStart (startDate? : Option Int) (endDate : Int) : Int :=
  startDate?.getD (endDate - 365 * oneDay)

/-- The full-download path shared by the no-store branch and the
corrupt-store fallback: fetch `fullStart..endDate`, persist, return. -/
def fullFetch (fetch : FetchOracle ε) (startDate? : Option Int) (endDate : Int) :
    Except ε UpdateResult :=
  match fetch (some (fullStart startDate? endDate)) endDate with
  | .error e => .error e
  | .ok rows => .ok ⟨rows, [rows]⟩

/-- `incremental_start > end_date`: no new data is needed. Pandas evaluates
`NaT > end_date` to `False`, hence the `none` case. -/
def noNewNeeded (existing : List Row) (endDate : Int) : Bool :=
  match maxDate existing with
  | some m => decide (m + oneDay > endDate)
  | none => false

/-- `DataFetcher.smart_update` (src/core/data_fetcher.py):
if the store file exists and reads, either return it unchanged (when
`last_date + 1 day > end_date` or the fetched delta is empty) or merge the
delta in and persist; any exception inside that branch (unreadable store or
a raising delta fetch) falls back to a persisted full download, as does an
absent store file. -/
def smart_update (fetch : FetchOracle ε) (startDate? : Option Int) (endDate : Int) :
    StoreFile → Except ε UpdateResult
  | .absent => fullFetch fetch startDate? endDate
  | .corrupt => fullFetch fetch startDate? endDate
  | .ok existing =>
    if noNewNeeded existing endDate then
      .ok ⟨existing, []⟩
    else
      match fetch ((maxDate existing).map (fun m => m + oneDay)) endDate with
      | .error _ => fullFetch fetch startDate? endDate
      | .ok newRows =>
        if newRows = [] then
          .ok ⟨existing, []⟩
        else
          let combined := mergeRows existing newRows
          .ok ⟨combined, [combined]⟩

/-- A stored series is well-formed when its timestamps are strictly
ascending (which forces at most one row per timestamp). -/
def StrictlyAscending (rows : List Row) : Prop :=
  List.Pairwise (fun a b => a < b) (dates rows)

instance (rows : List Row) : Decidable (StrictlyAscending rows) :=
  inferInstanceAs (Decidable (List.Pairwise _ _))

theorem StrictlyAscending.nodup_dates {rows : List Row}
    (h : StrictlyAscending rows) : (dates rows).Nodup :=
  h.imp Int.ne_of_lt

theorem mem_of_mem_dedupKeepLast {a : Row} :
    ∀ {l : List Row}, a ∈ dedupKeepLast l → a ∈ l
  | [], h => by simp [dedupKeepLast] at h
  | r :: rs, h => by
    cases hk : keySeen r.date rs with
    | true =>
      rw [dedupKeepLast, if_pos hk] at h
      exact List.mem_cons_of_mem r (mem_of_mem_dedupKeepLast h)
    | false =>
      rw [dedupKeepLast, if_neg (by simp [hk])] at h
      rcases List.mem_cons.1 h with h | h
      · exact h ▸ List.mem_cons_self a rs
      · exact List.mem_cons_of_mem r (mem_of_mem_dedupKeepLast h)

theorem keySeen_eq_false_iff {t : Int} {l : List Row} :
    keySeen t l = false ↔ ∀ r ∈ l, r.date ≠ t := by
  simp [keySeen, List.any_eq_true]

theorem nodup_dates_dedupKeepLast : ∀ l : List Row, (dates (dedupKeepLast l)).Nodup
  | [] => by simp [dedupKeepLast, dates]
  | r :: rs => by
    cases hk : keySeen r.date rs with
    | true =>
      rw [dedupKeepLast, if_pos hk]
      exact nodup_dates_dedupKeepLast rs
    | false =>
      rw [dedupKeepLast, if_neg (by simp [hk])]
      simp only [dates, List.map_cons, List.nodup_cons]
      refine ⟨fun hmem => ?_, nodup_dates_dedupKeepLast rs⟩
      obtain ⟨s, hs, hdate⟩ := List.mem_map.1 hmem
      exact (keySeen_eq_false_iff.1 hk s (mem_of_mem_dedupKeepLast hs)) hdate

theorem mem_dedupKeepLast_of_last_occurrence {d : Row} :
    ∀ (l₁ l₂ : List Row), (∀ s ∈ l₂, s.date ≠ d.date) →
      d ∈ dedupKeepLast (l₁ ++ d :: l₂)
  | [], l₂, h => by
    have hk : keySeen d.date l₂ = false := keySeen_eq_false_iff.2 h
    rw [List.nil_append, dedupKeepLast, if_neg (by simp [hk])]
    exact List.mem_cons_self d _
  | r :: l₁, l₂, h => by
    have ih := mem_dedupKeepLast_of_last_occurrence l₁ l₂ h
    cases hk : keySeen r.date (l₁ ++ d :: l₂) with
    | true => rw [List.cons_append, dedupKeepLast, if_pos hk]; exact ih
    | false =>
      rw [List.cons_append, dedupKeepLast, if_neg (by simp [hk])]
      exact List.mem_cons_of_mem r ih

theorem sortByDate_perm (l : List Row) : List.Perm (sortByDate l) l :=
  List.perm_insertionSort dateLE l

theorem sorted_sortByDate (l : List Row) : List.Sorted dateLE (sortByDate l) :=
  List.sorted_insertionSort dateLE l

theorem nodup_dates_mergeRows (existing newRows : List Row) :
    (dates (mergeRows existing newRows)).Nodup := by
  have hperm : List.Perm (dates (mergeRows existing newRows))
      (dates (dedupKeepLast (existing ++ newRows))) := by
    simpa [dates, mergeRows] using
      List.Perm.map (fun r : Row => r.date)
        (sortByDate_perm (dedupKeepLast (existing ++ newRows)))
  exact hperm.nodup_iff.2 (nodup_dates_dedupKeepLast _)

theorem strictlyAscending_mergeRows (existing newRows : List Row) :
    StrictlyAscending (mergeRows existing newRows) := by
  have hle : List.Pairwise (fun a b : Int => a ≤ b)
      (dates (mergeRows existing newRows)) :=
    (List.pairwise_map).2 (sorted_sortByDate (dedupKeepLast (existing ++ newRows)))
  have hne : List.Pairwise (fun a b : Int => a ≠ b)
      (dates (mergeRows existing newRows)) :=
    nodup_dates_mergeRows existing newRows
  exact (hle.and hne).imp (fun h => lt_of_le_of_ne h.1 h.2)

theorem eq_of_mem_of_same_date {l : List Row} (hnd : (dates l).Nodup)
    {a b : Row} (ha : a ∈ l) (hb : b ∈ l) (hdate : a.date = b.date) : a = b :=
  List.inj_on_of_nodup_map hnd ha hb hdate

/-- Delta rows override stored rows on timestamp collision: any row of the
merged list sharing a timestamp with a delta row is that delta row. -/
theorem mergeRows_delta_overrides {existing newRows : List Row}
    (hnd : (dates newRows).Nodup) {d : Row} (hd : d ∈ newRows)
    {r : Row} (hr : r ∈ mergeRows existing newRows) (hdate : r.date = d.date) :
    r = d := by
  obtain ⟨n₁, n₂, rfl⟩ := List.append_of_mem hd
  have htail : ∀ s ∈ n₂, s.date ≠ d.date := by
    intro s hs hcontra
    have hnodup : (d.date :: dates n₂).Nodup := by
      simp only [dates, List.map_append, List.map_cons] at hnd
      exact (List.nodup_append.1 hnd).2.1
    exact (List.nodup_cons.1 hnodup).1
      (hcontra ▸ List.mem_map_of_mem (fun x => x.date) hs)
  have hmem : d ∈ dedupKeepLast (existing ++ (n₁ ++ d :: n₂)) := by
    have h := mem_dedupKeepLast_of_last_occurrence (existing ++ n₁) n₂ htail
    simpa [List.append_assoc] using h
  have hmem' : d ∈ mergeRows existing (n₁ ++ d :: n₂) :=
    (sortByDate_perm _).mem_iff.2 hmem
  exact eq_of_mem_of_same_date (nodup_dates_mergeRows _ _) hr hmem' hdate

theorem fullFetch_eq_ok {ε : Type} {fetch : FetchOracle ε} {s? : Option Int}
    {e : Int} {res : UpdateResult} (h : fullFetch fetch s? e = .ok res) :
    fetch (some (fullStart s? e)) e = .ok res.rows ∧ res.writes = [res.rows] := by
  unfold fullFetch at h
  cases hf : fetch (some (fullStart s? e)) e with
  | error err => rw [hf] at h; exact absurd h (by simp)
  | ok rows =>
    rw [hf] at h
    injection h with h'
    subst h'
    exact ⟨rfl, rfl⟩

/-- C2: on every normally-returning `smart_update` call whose inputs are
well-formed (the readable store and every fetched frame are strictly
ascending in time), the returned record has strictly ascending timestamps,
hence at most one row per timestamp; and whenever the call merged a fetched
delta into the stored rows, any result row whose timestamp collides with a
delta row equals that delta row (the delta overrides the stored value). -/
theorem smart_update_dedup_invariant {ε : Type} (fetch : FetchOracle ε)
    (startDate? : Option Int) (endDate : Int) (file : StoreFile) (res : UpdateResult)
    (hstore : ∀ rows, file = .ok rows → StrictlyAscending rows)
    (hfetch : ∀ s? rows, fetch s? endDate = .ok rows → StrictlyAscending rows)
    (hres : smart_update fetch startDate? endDate file = .ok res) :
    StrictlyAscending res.rows ∧ (dates res.rows).Nodup ∧
      ∀ existing newRows, file = .ok existing →
        fetch ((maxDate existing).map (fun m => m + oneDay)) endDate = .ok newRows →
        noNewNeeded existing endDate = false → newRows ≠ [] →
        ∀ d ∈ newRows, ∀ r ∈ res.rows, r.date = d.date → r = d := by
  cases file with
  | absent =>
    obtain ⟨hf, -⟩ := fullFetch_eq_ok hres
    have hasc := hfetch _ _ hf
    exact ⟨hasc, hasc.nodup_dates, fun ex nw hfile => nomatch hfile⟩
  | corrupt =>
    obtain ⟨hf, -⟩ := fullFetch_eq_ok hres
    have hasc := hfetch _ _ hf
    exact ⟨hasc, hasc.nodup_dates, fun ex nw hfile => nomatch hfile⟩
  | ok existing =>
    simp only [smart_update] at hres
    split at hres
    next hnn =>
      injection hres with h'
      subst h'
      have hasc := hstore existing rfl
      refine ⟨hasc, hasc.nodup_dates, ?_⟩
      intro ex nw hfile hfet hnn' hne d hd r hr hdate
      injection hfile with hex
      subst hex
      exact absurd hnn' (by simp [hnn])
    next hnn =>
      split at hres
      next err hf =>
        obtain ⟨hful, -⟩ := fullFetch_eq_ok hres
        have hasc := hfetch _ _ hful
        refine ⟨hasc, hasc.nodup_dates, ?_⟩
        intro ex nw hfile hfet hnn' hne d hd r hr hdate
        injection hfile with hex
        subst hex
        rw [hf] at hfet
        exact absurd hfet (by simp)
      next newRows hf =>
        split at hres
        next hempty =>
          injection hres with h'
          subst h'
          have hasc := hstore existing rfl
          refine ⟨hasc, hasc.nodup_dates, ?_⟩
          intro ex nw hfile hfet hnn' hne d hd r hr hdate
          injection hfile with hex
          subst hex
          rw [hf] at hfet
          injection hfet with hnw
          exact absurd (hnw.symm.trans hempty) hne
        next hempty =>
          injection hres with h'
          subst h'
          have hnd : (dates newRows).Nodup := (hfetch _ _ hf).nodup_dates
          refine ⟨strictlyAscending_mergeRows existing newRows,
            nodup_dates_mergeRows existing newRows, ?_⟩
          intro ex nw hfile hfet hnn' hne d hd r hr hdate
          injection hfile with hex
          subst hex
          rw [hf] at hfet
          injection hfet with hnw
          subst hnw
          exact mergeRows_delta_overrides hnd hd hr hdate

/-- Fetch oracle for the C2 witness: always returns the same two bars. -/
def wfetchC2 : FetchOracle Unit := fun _ _ => .ok [⟨0, 7⟩, ⟨86400, 8⟩]

/-- Witness for C2 at a concrete input: a store holding one bar at time 0 is
merged with a colliding delta; the theorem yields the invariant for the
merged record. -/
theorem smart_update_dedup_invariant_witness :
    StrictlyAscending [Row.mk 0 7, Row.mk 86400 8] ∧
      (dates [Row.mk 0 7, Row.mk 86400 8]).Nodup :=
  have h := smart_update_dedup_invariant wfetchC2 none (2 * 86400)
    (.ok [⟨0, 5⟩]) ⟨[⟨0, 7⟩, ⟨86400, 8⟩], [[⟨0, 7⟩, ⟨86400, 8⟩]]⟩
    (fun rows hr => by injection hr with h'; rw [← h']; decide)
    (fun s? rows hr => by
      simp only [wfetchC2] at hr
      injection hr with h'
      rw [← h']; decide)
    (by decide)
  ⟨h.1, h.2.1⟩

/-- Fetch oracle for the C1 counterexample (never actually consulted). -/
def cfetchC1 : FetchOracle Unit := fun _ _ => .ok []

/-- Counterexample to C1 as stated: with a stored bar at time 0 and
`end_date = 0`, `incremental_start > end_date`, so `smart_update` returns
the stored record without performing any `to_parquet` write — refuting
"writes exactly one file per key on every call". -/
theorem smart_update_write_always_cex :
    ¬ ∀ res : UpdateResult,
        smart_update cfetchC1 none 0 (.ok [Row.mk 0 5]) = .ok res →
        res.writes.length = 1 := by
  intro h
  exact absurd (h ⟨[Row.mk 0 5], []⟩ (by decide)) (by decide)

/-- C1 (amended): a normally-returning `smart_update` call persists its
result at most once — exactly once with the written file equal to the
returned record, except on the no-new-data-needed branch and the
empty-delta branch, where it performs no write and returns the stored
record unchanged. -/
theorem smart_update_write_discipline {ε : Type} (fetch : FetchOracle ε)
    (startDate? : Option Int) (endDate : Int) (file : StoreFile)
    (res : UpdateResult)
    (hres : smart_update fetch startDate? endDate file = .ok res) :
    res.writes = [res.rows] ∨
      (res.writes = [] ∧ ∃ existing, file = .ok existing ∧ res.rows = existing ∧
        (noNewNeeded existing endDate = true ∨
          fetch ((maxDate existing).map (fun m => m + oneDay)) endDate = .ok [])) := by
  cases file with
  | absent => exact Or.inl (fullFetch_eq_ok hres).2
  | corrupt => exact Or.inl (fullFetch_eq_ok hres).2
  | ok existing =>
    simp only [smart_update] at hres
    split at hres
    next hnn =>
      injection hres with h'
      subst h'
      exact Or.inr ⟨rfl, existing, rfl, rfl, Or.inl hnn⟩
    next hnn =>
      split at hres
      next err hf => exact Or.inl (fullFetch_eq_ok hres).2
      next newRows hf =>
        split at hres
        next hempty =>
          injection hres with h'
          subst h'
          exact Or.inr ⟨rfl, existing, rfl, rfl, Or.inr (hempty ▸ hf)⟩
        next hempty =>
          injection hres with h'
          subst h'
          exact Or.inl rfl

/-- Fetch oracle for the C1 witness. -/
def afetchC1 : FetchOracle Unit := fun _ _ => .ok [⟨0, 1⟩]

/-- Witness for the amended C1 at a concrete input: an absent store file
triggers a full download that is persisted exactly once. -/
theorem smart_update_write_discipline_witness :
    (UpdateResult.mk [Row.mk 0 1] [[Row.mk 0 1]]).writes =
        [(UpdateResult.mk [Row.mk 0 1] [[Row.mk 0 1]]).rows] ∨
      ((UpdateResult.mk [Row.mk 0 1] [[Row.mk 0 1]]).writes = [] ∧
        ∃ existing, StoreFile.absent = .ok existing ∧
          (UpdateResult.mk [Row.mk 0 1] [[Row.mk 0 1]]).rows = existing ∧
          (noNewNeeded existing 0 = true ∨
            afetchC1 ((maxDate existing).map (fun m => m + oneDay)) 0 = .ok [])) :=
  smart_update_write_discipline afetchC1 none 0 .absent
    ⟨[Row.mk 0 1], [[Row.mk 0 1]]⟩ (by decide)

/-- C3: when the Master Store record exists but reading it raises, the read
error never reaches the caller: the engine performs a full-range fetch from
`fullStart` (the given start time, else the end time minus 365 days) through
the end time, and — when that fetch returns — overwrites the store with its
result exactly once and returns it normally. -/
theorem smart_update_corrupt_recovers {ε : Type} (fetch : FetchOracle ε)
    (startDate? : Option Int) (endDate : Int) (rows : List Row)
    (hfull : fetch (some (fullStart startDate? endDate)) endDate = .ok rows) :
    smart_update fetch startDate? endDate .corrupt = .ok ⟨rows, [rows]⟩ := by
  simp [smart_update, fullFetch, hfull]

/-- Fetch oracle for the C3 witness: succeeds only on the default
full-range start `0 - 365 * oneDay`. -/
def wfetchC3 : FetchOracle Unit := fun s? _ =>
  if s? = some (0 - 365 * oneDay) then .ok [⟨1, 2⟩] else .error ()

/-- Witness for C3 at a concrete input: a corrupt store with no caller
start date rebuilds from `endDate - 365 days` and persists the result. -/
theorem smart_update_corrupt_recovers_witness :
    smart_update wfetchC3 none 0 .corrupt = .ok ⟨[Row.mk 1 2], [[Row.mk 1 2]]⟩ :=
  smart_update_corrupt_recovers wfetchC3 none 0 [Row.mk 1 2] (by decide)

/-- C10: the except-handler wraps the whole incremental branch, so when the
store reads fine but the delta fetch raises, the exception is swallowed and
the call behaves exactly like the persisted full-range download
(`fullFetch`); in particular a successful fallback returns normally, so only
a failure of the fallback itself can propagate. -/
theorem smart_update_delta_error_falls_back {ε : Type} (fetch : FetchOracle ε)
    (startDate? : Option Int) (endDate : Int) (existing : List Row) (err : ε)
    (hnn : noNewNeeded existing endDate = false)
    (hf : fetch ((maxDate existing).map (fun m => m + oneDay)) endDate = .error err) :
    smart_update fetch startDate? endDate (.ok existing) =
        fullFetch fetch startDate? endDate ∧
      ∀ rows, fetch (some (fullStart startDate? endDate)) endDate = .ok rows →
        smart_update fetch startDate? endDate (.ok existing) = .ok ⟨rows, [rows]⟩ := by
  have hmain : smart_update fetch startDate? endDate (.ok existing) =
      fullFetch fetch startDate? endDate := by
    simp [smart_update, hnn, hf]
  exact ⟨hmain, fun rows hok => by rw [hmain]; simp [fullFetch, hok]⟩

/-- Fetch oracle for the C10 witness: raises `3` on the incremental range,
succeeds on any other start. -/
def wfetchC10 : FetchOracle Int := fun s? _ =>
  if s? = some 86400 then .error 3 else .ok [⟨5, 5⟩]

/-- Witness for C10 at a concrete input: the delta fetch raises, the call
falls back to the full download and persists its result. -/
theorem smart_update_delta_error_falls_back_witness :
    smart_update wfetchC10 none (2 * 86400) (.ok [Row.mk 0 9]) =
      .ok ⟨[Row.mk 5 5], [[Row.mk 5 5]]⟩ :=
  (smart_update_delta_error_falls_back wfetchC10 none (2 * 86400) [Row.mk 0 9] 3
      (by decide) (by decide)).2 [Row.mk 5 5] (by decide)

/-! ### Gap analyzer (`analyze_gaps`, src/core/data_fetcher.py) -/

/-- The message returned by the gap analyzer, with the concrete dates the
warning text interpolates (`数据为空` / the incomplete-data warning naming
the actual first date and the requested start / the success text). -/
inductive GapMessage
  | emptyData
  | incomplete (actualStart requestedStart : Int)
  | success
deriving DecidableEq, Repr

/-- `(actual_start - requested_start).days`: Python `timedelta.days` floors
toward negative infinity. -/
def diffDays (a b : Int) : Int := (a - b).fdiv 86400

/-- `DataFetcher.analyze_gaps`: warn on an empty frame; warn with the two
start dates when the first row lags the requested start by more than three
days; otherwise report success. Only the first row and the requested start
are ever consulted. -/
def analyze_gaps (rows : List Int) (requestedStart requestedEnd : Int) :
    Bool × GapMessage :=
  match rows with
  | [] => (true, .emptyData)
  | first :: _ =>
    if diffDays first requestedStart > 3 then
      (true, .incomplete first requestedStart)
    else
      (false, .success)

/-- C4: the gap analyzer warns on an empty series; warns with the concrete
actual and requested start dates exactly when the first timestamp lags the
requested start by more than 3 days (`timedelta.days`, so a first row
exactly 4 days late warns); otherwise reports success; and its verdict is
independent of the requested end and of every row after the first. -/
theorem analyze_gaps_spec (rows : List Int) (requestedStart requestedEnd : Int) :
    (rows = [] → analyze_gaps rows requestedStart requestedEnd = (true, .emptyData)) ∧
    (∀ first rest, rows = first :: rest →
      (diffDays first requestedStart > 3 →
        analyze_gaps rows requestedStart requestedEnd =
          (true, .incomplete first requestedStart)) ∧
      (diffDays first requestedStart ≤ 3 →
        analyze_gaps rows requestedStart requestedEnd = (false, .success))) ∧
    (∀ requestedEnd', analyze_gaps rows requestedStart requestedEnd =
      analyze_gaps rows requestedStart requestedEnd') ∧
    (∀ first rest rest',
      analyze_gaps (first :: rest) requestedStart requestedEnd =
        analyze_gaps (first :: rest') requestedStart requestedEnd) := by
  refine ⟨fun h => by subst h; rfl, ?_, ?_, ?_⟩
  · intro first rest h
    subst h
    constructor
    · intro hgt
      simp [analyze_gaps, if_pos hgt]
    · intro hle
      simp [analyze_gaps, if_neg (not_lt.2 hle)]
  · intro requestedEnd'
    cases rows <;> rfl
  · intro first rest rest'
    rfl

/-- Witness for C4 at a concrete input: a series whose first row is exactly
4 days (345600 s) after the requested start warns with both dates. -/
theorem analyze_gaps_spec_witness :
    analyze_gaps [345600, 432000] 0 864000 = (true, .incomplete 345600 0) :=
  ((analyze_gaps_spec [345600, 432000] 0 864000).2.1 345600 [432000] rfl).1
    (by decide)

/-! ### Alignment preview (`_generate_preview`, src/core/data_processor.py) -/

/-- `DataProcessor._generate_preview`: the full frame when it has at most
`nHead + nTail` rows, else the first `nHead` rows followed by the last
`nTail` rows. -/
def generate_preview {α : Type} (rows : List α) (nHead nTail : Nat) : List α :=
  if rows.length ≤ nHead + nTail then rows
  else rows.take nHead ++ rows.drop (rows.length - nTail)

/-- C5: with the default head/tail size 50, the preview is the whole table
when it has at most 100 rows; otherwise it has exactly 100 rows, whose
first 50 positions hold rows 1–50 and whose last 50 positions hold the last
50 rows of the full dataset, in original order. -/
theorem generate_preview_spec {α : Type} (rows : List α) :
    (rows.length ≤ 100 → generate_preview rows 50 50 = rows) ∧
    (100 < rows.length →
      (generate_preview rows 50 50).length = 100 ∧
      (∀ i, i < 50 → (generate_preview rows 50 50)[i]? = rows[i]?) ∧
      (∀ i, 50 ≤ i → i < 100 →
        (generate_preview rows 50 50)[i]? = rows[rows.length - 100 + i]?)) := by
  constructor
  · intro hle
    simp [generate_preview, hle]
  · intro hgt
    have hnot : ¬ rows.length ≤ 50 + 50 := by omega
    have hpre : generate_preview rows 50 50 =
        rows.take 50 ++ rows.drop (rows.length - 50) := by
      simp [generate_preview, hnot]
    have hlen : (rows.take 50).length = 50 := by
      rw [List.length_take]; omega
    refine ⟨?_, ?_, ?_⟩
    · rw [hpre, List.length_append, hlen, List.length_drop]
      omega
    · intro i hi
      rw [hpre, List.getElem?_append, hlen, if_pos hi, List.getElem?_take,
        if_pos hi]
    · intro i h50 h100
      rw [hpre, List.getElem?_append_right (by omega), hlen,
        List.getElem?_drop]
      congr 1
      omega

/-- Witness for C5 at a concrete input: a 500-row dataset previews to
exactly 100 rows, position 50 of the preview holding row 451 of the full
dataset. -/
theorem generate_preview_spec_witness :
    (generate_preview (List.range 500) 50 50).length = 100 ∧
      (generate_preview (List.range 500) 50 50)[50]? = (List.range 500)[450]? := by
  have h := (generate_preview_spec (List.range 500)).2
    (by rw [List.length_range]; norm_num)
  exact ⟨h.1, (h.2.2 50 (by norm_num) (by norm_num)).trans
    (by rw [List.length_range])⟩

/-! ### Session filter (`_filter_lunch_break`, src/core/data_fetcher.py) -/

/-- A row as the session filter sees it: the wall-clock hour and minute
extracted from its timestamp, plus its payload. -/
structure TimedRow where
  hour : Nat
  minute : Nat
  val : Int
deriving DecidableEq, Repr

/-- The blacklist window: `(hour == 12 & minute > 30) | (hour == 13) |
(hour == 14 & minute < 30)`. -/
def isLunchBreak (r : TimedRow) : Bool :=
  (decide (r.hour = 12) && decide (30 < r.minute)) || decide (r.hour = 13) ||
    (decide (r.hour = 14) && decide (r.minute < 30))

/-- `DataFetcher._filter_lunch_break`: only the asset classes
`"Malaysia Stock"` and `"Futures - Global"` are filtered; for them every
row inside the blacklist window is dropped and every other row kept. -/
def filter_lunch_break (assetType : String) (rows : List TimedRow) : List TimedRow :=
  if assetType = "Malaysia Stock" ∨ assetType = "Futures - Global" then
    rows.filter (fun r => !isLunchBreak r)
  else rows

/-- C9: for a flagged asset class a row survives the session filter iff it
is not at hour 12 past minute 30, not in hour 13, and not in hour 14 before
minute 30; a 12:30 row always survives; and any other asset class gets the
series back unchanged. -/
theorem filter_lunch_break_spec (assetType : String) (rows : List TimedRow) :
    ((assetType = "Malaysia Stock" ∨ assetType = "Futures - Global") →
      ∀ r, r ∈ filter_lunch_break assetType rows ↔
        r ∈ rows ∧ ¬ ((r.hour = 12 ∧ 30 < r.minute) ∨ r.hour = 13 ∨
          (r.hour = 14 ∧ r.minute < 30))) ∧
    ((assetType ≠ "Malaysia Stock" ∧ assetType ≠ "Futures - Global") →
      filter_lunch_break assetType rows = rows) ∧
    (∀ r ∈ rows, r.hour = 12 → r.minute = 30 →
      r ∈ filter_lunch_break assetType rows) := by
  refine ⟨?_, ?_, ?_⟩
  · intro hflag r
    rw [filter_lunch_break, if_pos hflag, List.mem_filter]
    simp [isLunchBreak]
    intro _
    tauto
  · intro hnot
    rw [filter_lunch_break, if_neg (by tauto)]
  · intro r hr hh hm
    by_cases hflag : assetType = "Malaysia Stock" ∨ assetType = "Futures - Global"
    · rw [filter_lunch_break, if_pos hflag, List.mem_filter]
      refine ⟨hr, ?_⟩
      simp [isLunchBreak, hh, hm]
    · rw [filter_lunch_break, if_neg hflag]
      exact hr

/-- Witness for C9 at a concrete input: for Malaysia Stock, the 12:30 row
is kept while the 13:00 row is dropped. -/
theorem filter_lunch_break_spec_witness :
    TimedRow.mk 12 30 1 ∈
        filter_lunch_break "Malaysia Stock" [⟨12, 30, 1⟩, ⟨13, 0, 2⟩] ∧
      ¬ TimedRow.mk 13 0 2 ∈
        filter_lunch_break "Malaysia Stock" [⟨12, 30, 1⟩, ⟨13, 0, 2⟩] :=
  ⟨(filter_lunch_break_spec "Malaysia Stock" [⟨12, 30, 1⟩, ⟨13, 0, 2⟩]).2.2
      ⟨12, 30, 1⟩ (by decide) rfl rfl,
    fun hmem =>
      by simpa using (((filter_lunch_break_spec "Malaysia Stock"
        [⟨12, 30, 1⟩, ⟨13, 0, 2⟩]).1 (Or.inl rfl) ⟨13, 0, 2⟩).1 hmem).2⟩

/-! ### Alignment engine column helpers (src/core/data_processor.py) -/

/-- Column names as character lists (Python `str`). -/
abbrev ColName := List Char

/-- A named dataframe column of nullable cells (`NaN` = `none`), in time
order of the aligned index. -/
structure NamedCol (V : Type) where
  name : ColName
  values : List (Option V)
deriving DecidableEq, Repr

/-- `f"{symbol}_"`: the prefix `_rename_columns_with_prefix` puts on a
symbol's columns and `_apply_forward_fill` selects by (`startswith`). -/
def prefName (sym : ColName) : ColName := sym ++ ['_']

/-- `Series.ffill()` on one column: each null cell takes the closest
earlier non-null value, if any. -/
def ffillVals {V : Type} : Option V → List (Option V) → List (Option V)
  | _, [] => []
  | carry, none :: vs => carry :: ffillVals carry vs
  | _, some x :: vs => some x :: ffillVals (some x) vs

/-- `df[cols] = df[cols].ffill()` for the columns whose name starts with
`{sym}_`, each column filled from its own cells only. -/
def fillMatching {V : Type} (sym : ColName) (cols : List (NamedCol V)) :
    List (NamedCol V) :=
  cols.map (fun c =>
    if (prefName sym).isPrefixOf c.name then ⟨c.name, ffillVals none c.values⟩
    else c)

/-- `DataProcessor._apply_forward_fill`: fill A's prefixed columns when the
target is `\x27A\x27` or `\x27both\x27`, then B's prefixed columns when the target is
`\x27B\x27` or `\x27both\x27`. -/
def apply_forward_fill {V : Type} (symA symB : ColName) (ffillAsset : String)
    (cols : List (NamedCol V)) : List (NamedCol V) :=
  let cols₁ :=
    if ffillAsset = "A" ∨ ffillAsset = "both" then fillMatching symA cols else cols
  if ffillAsset = "B" ∨ ffillAsset = "both" then fillMatching symB cols₁ else cols₁

theorem getElem?_fillMatching {V : Type} (sym : ColName) (cols : List (NamedCol V))
    (i : Nat) :
    (fillMatching sym cols)[i]? = cols[i]?.map (fun c =>
      if (prefName sym).isPrefixOf c.name then ⟨c.name, ffillVals none c.values⟩
      else c) := by
  simp [fillMatching]

theorem apply_forward_fill_B_eq (symA symB : ColName) {V : Type}
    (cols : List (NamedCol V)) :
    apply_forward_fill symA symB "B" cols = fillMatching symB cols := rfl

theorem apply_forward_fill_A_eq (symA symB : ColName) {V : Type}
    (cols : List (NamedCol V)) :
    apply_forward_fill symA symB "A" cols = fillMatching symA cols := rfl

theorem apply_forward_fill_both_eq (symA symB : ColName) {V : Type}
    (cols : List (NamedCol V)) :
    apply_forward_fill symA symB "both" cols =
      fillMatching symB (fillMatching symA cols) := rfl

theorem not_prefix_of_eq_false {l₁ l₂ : List Char}
    (h : l₁.isPrefixOf l₂ = false) : ¬ l₁ <+: l₂ := by
  simp only [← List.isPrefixOf_iff_prefix]
  simp [h]

/-- Counterexample to C6 as stated: with `symA = "AB_C"` and `symB = "AB"`,
the A-prefixed column `AB_C_x` also starts with `AB_`, so a fill targeting
only B fills A's null cell. -/
theorem apply_forward_fill_scoped_cex :
    ¬ ∀ (symA symB : ColName) (cols : List (NamedCol Int)) (i : Nat)
        (c : NamedCol Int),
        cols[i]? = some c → (prefName symA).isPrefixOf c.name = true →
        (apply_forward_fill symA symB "B" cols)[i]? = some c := by
  intro h
  have hx := h ['A', 'B', '_', 'C'] ['A', 'B']
    [⟨['A', 'B', '_', 'C', '_', 'x'], [some 1, none]⟩] 0
    ⟨['A', 'B', '_', 'C', '_', 'x'], [some 1, none]⟩ rfl (by decide)
  exact absurd hx (by decide)

/-- C6 (amended): forward-fill only touches the columns carrying the
selected target's prefix, provided the untargeted symbol's columns do not
also carry the targeted symbol's prefix (which can happen when one
prefixed name extends the other, as in the counterexample). Then with
target `\x27B\x27` every A-prefixed column is returned exactly as it was, with
target `\x27A\x27` every B-prefixed column is, and with `\x27both\x27` every prefixed
column is filled from its own cells only while unprefixed columns are
untouched. -/
theorem apply_forward_fill_scoped {V : Type} (symA symB : ColName)
    (cols : List (NamedCol V)) (i : Nat) (c : NamedCol V)
    (hc : cols[i]? = some c) :
    ((prefName symA).isPrefixOf c.name = true →
      (prefName symB).isPrefixOf c.name = false →
      (apply_forward_fill symA symB "B" cols)[i]? = some c ∧
      (apply_forward_fill symA symB "both" cols)[i]? =
        some ⟨c.name, ffillVals none c.values⟩) ∧
    ((prefName symB).isPrefixOf c.name = true →
      (prefName symA).isPrefixOf c.name = false →
      (apply_forward_fill symA symB "A" cols)[i]? = some c ∧
      (apply_forward_fill symA symB "both" cols)[i]? =
        some ⟨c.name, ffillVals none c.values⟩) ∧
    ((prefName symA).isPrefixOf c.name = false →
      (prefName symB).isPrefixOf c.name = false →
      (apply_forward_fill symA symB "A" cols)[i]? = some c ∧
      (apply_forward_fill symA symB "B" cols)[i]? = some c ∧
      (apply_forward_fill symA symB "both" cols)[i]? = some c) := by
  refine ⟨fun hA hB => ?_, fun hB hA => ?_, fun hA hB => ?_⟩
  · have hA' : prefName symA <+: c.name := by simpa using hA
    have hB' : ¬ prefName symB <+: c.name := not_prefix_of_eq_false hB
    constructor
    · rw [apply_forward_fill_B_eq, getElem?_fillMatching, hc]
      simp [hB']
    · rw [apply_forward_fill_both_eq, getElem?_fillMatching,
        getElem?_fillMatching, hc]
      simp [hA', hB']
  · have hB' : prefName symB <+: c.name := by simpa using hB
    have hA' : ¬ prefName symA <+: c.name := not_prefix_of_eq_false hA
    constructor
    · rw [apply_forward_fill_A_eq, getElem?_fillMatching, hc]
      simp [hA']
    · rw [apply_forward_fill_both_eq, getElem?_fillMatching,
        getElem?_fillMatching, hc]
      simp [hA', hB']
  · have hA' : ¬ prefName symA <+: c.name := not_prefix_of_eq_false hA
    have hB' : ¬ prefName symB <+: c.name := not_prefix_of_eq_false hB
    refine ⟨?_, ?_, ?_⟩
    · rw [apply_forward_fill_A_eq, getElem?_fillMatching, hc]
      simp [hA']
    · rw [apply_forward_fill_B_eq, getElem?_fillMatching, hc]
      simp [hB']
    · rw [apply_forward_fill_both_eq, getElem?_fillMatching,
        getElem?_fillMatching, hc]
      simp [hA', hB']

/-- Witness for the amended C6 at a concrete input: with distinct
non-nested symbols `X` and `Y`, a B-targeted fill returns X's column (null
cell included) exactly as it was. -/
theorem apply_forward_fill_scoped_witness :
    (apply_forward_fill ['X'] ['Y'] "B"
        [⟨['X', '_', 'v'], [some (1 : Int), none]⟩,
         ⟨['Y', '_', 'v'], [some 2, none]⟩])[0]? =
      some ⟨['X', '_', 'v'], [some 1, none]⟩ :=
  ((apply_forward_fill_scoped ['X'] ['Y']
      [⟨['X', '_', 'v'], [some (1 : Int), none]⟩, ⟨['Y', '_', 'v'], [some 2, none]⟩]
      0 ⟨['X', '_', 'v'], [some 1, none]⟩ rfl).1 (by decide) (by decide)).1

/-- `f"{symbol}_Close"`. -/
def closeCol (sym : ColName) : ColName := sym ++ ['_', 'C', 'l', 'o', 's', 'e']

/-- `name in df.columns` / `df[name]`: the first column so named. -/
def findColumn {V : Type} (n : ColName) (cols : List (NamedCol V)) :
    Option (NamedCol V) :=
  cols.find? (fun c => decide (c.name = n))

/-- `DataProcessor._add_generic_overlap_flag`, returning the `is_overlap`
column it appends: cellwise `notna(A_Close) & notna(B_Close)` when both
close columns exist, else `False` broadcast over the frame's `nrows`. -/
def add_overlap_flag {V : Type} (symA symB : ColName) (cols : List (NamedCol V))
    (nrows : Nat) : List Bool :=
  match findColumn (closeCol symA) cols, findColumn (closeCol symB) cols with
  | some ca, some cb =>
    List.zipWith (fun a b => a.isSome && b.isSome) ca.values cb.values
  | _, _ => List.replicate nrows false

/-- C7: when both `{symbol}_Close` columns are present, the overlap flag at
a row is `true` iff both close cells at that row are non-null; when either
close column is missing, every overlap flag is `false`. -/
theorem add_overlap_flag_spec {V : Type} (symA symB : ColName)
    (cols : List (NamedCol V)) (nrows : Nat) :
    (∀ ca cb, findColumn (closeCol symA) cols = some ca →
      findColumn (closeCol symB) cols = some cb →
      ∀ (i : Nat) (a b : Option V), ca.values[i]? = some a →
        cb.values[i]? = some b →
        ((add_overlap_flag symA symB cols nrows)[i]? = some true ↔
          a.isSome = true ∧ b.isSome = true)) ∧
    ((findColumn (closeCol symA) cols = none ∨
        findColumn (closeCol symB) cols = none) →
      ∀ flag ∈ add_overlap_flag symA symB cols nrows, flag = false) := by
  constructor
  · intro ca cb hca hcb i a b ha hb
    have heq : add_overlap_flag symA symB cols nrows =
        List.zipWith (fun a b => a.isSome && b.isSome) ca.values cb.values := by
      rw [add_overlap_flag, hca, hcb]
    have hval : (add_overlap_flag symA symB cols nrows)[i]? =
        some (a.isSome && b.isSome) := by
      rw [heq, List.getElem?_zipWith, ha, hb]
    rw [hval]
    constructor
    · intro h
      injection h with h'
      exact Bool.and_eq_true_iff.1 h'
    · intro h
      rw [h.1, h.2]
      rfl
  · intro hmiss flag hflag
    rcases hmiss with hm | hm
    · rw [add_overlap_flag, hm] at hflag
      exact (List.mem_replicate.1 hflag).2
    · rw [add_overlap_flag, hm] at hflag
      cases hA : findColumn (closeCol symA) cols <;> rw [hA] at hflag <;>
        exact (List.mem_replicate.1 hflag).2

/-- Witness for C7 at a concrete input: both close columns present and
non-null at row 0, so the flag there is `true`. -/
theorem add_overlap_flag_spec_witness :
    (add_overlap_flag ['X'] ['Y']
        [⟨closeCol ['X'], [some (1 : Int), none]⟩,
         ⟨closeCol ['Y'], [some 2, some 3]⟩] 2)[0]? = some true :=
  ((add_overlap_flag_spec ['X'] ['Y']
      [⟨closeCol ['X'], [some (1 : Int), none]⟩, ⟨closeCol ['Y'], [some 2, some 3]⟩]
      2).1 ⟨closeCol ['X'], [some 1, none]⟩ ⟨closeCol ['Y'], [some 2, some 3]⟩
      (by decide) (by decide) 0 (some 1) (some 2) rfl rfl).2 ⟨rfl, rfl⟩

/-! ### Schema normalizer (`standardize_dataframe`, src/core/data_fetcher.py) -/

/-- Python's `needle in hay` on strings: contiguous substring test. -/
def containsSeq (needle : List Char) : List Char → Bool
  | [] => needle.isEmpty
  | c :: cs => needle.isPrefixOf (c :: cs) || containsSeq needle cs

/-- `col.lower()`. -/
def lowerName (n : ColName) : ColName := n.map Char.toLower

/-- Is the column dropped before keyword matching
(`adj`/`dividend`/`split` in the lower-cased name)? -/
def isDroppedName (c : ColName) : Bool :=
  containsSeq "adj".toList (lowerName c) ||
    containsSeq "dividend".toList (lowerName c) ||
    containsSeq "split".toList (lowerName c)

/-- The keyword chain that builds `column_mapping`; an unmatched column
keeps its own name. -/
def mapTarget (c : ColName) : ColName :=
  let l := lowerName c
  if containsSeq "date".toList l || containsSeq "time".toList l ||
      decide (c = "Date".toList) then "Date".toList
  else if containsSeq "open".toList l then "Open".toList
  else if containsSeq "high".toList l then "High".toList
  else if containsSeq "low".toList l then "Low".toList
  else if containsSeq "close".toList l then "Close".toList
  else if containsSeq "volume".toList l || containsSeq "vol".toList l then
    "Volume".toList
  else c

/-- `required_cols = [\x27Date\x27, \x27Open\x27, \x27High\x27, \x27Low\x27, \x27Close\x27, \x27Volume\x27]`. -/
def requiredCols : List ColName :=
  ["Date".toList, "Open".toList, "High".toList, "Low".toList, "Close".toList,
    "Volume".toList]

/-- An input column: its position in the raw frame (its identity) and its
name. -/
structure SrcCol where
  id : Nat
  name : ColName
deriving DecidableEq, Repr

/-- Drop the `adj`/`dividend`/`split` columns, then rename by keyword. -/
def renamedCols (cols : List SrcCol) : List SrcCol :=
  (cols.filter (fun c => !isDroppedName c.name)).map
    (fun c => ⟨c.id, mapTarget c.name⟩)

/-- `df[existing_cols]`: select, canonical-name group by canonical-name
group, every column bearing that name, preserving original order inside a
group. -/
def selectRequired (cols : List SrcCol) : List SrcCol :=
  (requiredCols.map (fun r => cols.filter (fun c => decide (c.name = r)))).flatten

/-- `df.loc[:, ~df.columns.duplicated()]`: keep only the first column of
each name. -/
def dedupNamesKeepFirst (seen : List ColName) : List SrcCol → List SrcCol
  | [] => []
  | c :: cs =>
    if c.name ∈ seen then dedupNamesKeepFirst seen cs
    else c :: dedupNamesKeepFirst (c.name :: seen) cs

/-- `DataFetcher.standardize_dataframe` at the column level: drop extras,
rename by keyword, select the canonical columns, de-duplicate names keeping
the first occurrence. -/
def standardize_dataframe (cols : List SrcCol) : List SrcCol :=
  dedupNamesKeepFirst [] (selectRequired (renamedCols cols))

/-- `name in df.columns` / `df[name]` as first-match lookup. -/
def findByName (t : ColName) (cols : List SrcCol) : Option SrcCol :=
  cols.find? (fun c => decide (c.name = t))

theorem mem_of_mem_dedupNamesKeepFirst {c : SrcCol} :
    ∀ {seen : List ColName} {l : List SrcCol},
      c ∈ dedupNamesKeepFirst seen l → c ∈ l
  | _, [], h => by simp [dedupNamesKeepFirst] at h
  | seen, d :: ds, h => by
    by_cases hm : d.name ∈ seen
    · rw [dedupNamesKeepFirst, if_pos hm] at h
      exact List.mem_cons_of_mem d (mem_of_mem_dedupNamesKeepFirst h)
    · rw [dedupNamesKeepFirst, if_neg hm] at h
      rcases List.mem_cons.1 h with h | h
      · exact h ▸ List.mem_cons_self c ds
      · exact List.mem_cons_of_mem d (mem_of_mem_dedupNamesKeepFirst h)

theorem dedupNamesKeepFirst_good :
    ∀ (l : List SrcCol) (seen : List ColName),
      (∀ c ∈ dedupNamesKeepFirst seen l, c.name ∉ seen) ∧
      ((dedupNamesKeepFirst seen l).map (fun c => c.name)).Nodup
  | [], seen => by simp [dedupNamesKeepFirst]
  | d :: ds, seen => by
    by_cases hm : d.name ∈ seen
    · rw [dedupNamesKeepFirst, if_pos hm]
      exact dedupNamesKeepFirst_good ds seen
    · rw [dedupNamesKeepFirst, if_neg hm]
      obtain ⟨ihseen, ihnodup⟩ := dedupNamesKeepFirst_good ds (d.name :: seen)
      refine ⟨?_, ?_⟩
      · intro c hc
        rcases List.mem_cons.1 hc with h | h
        · exact h ▸ hm
        · exact fun hs => ihseen c h (List.mem_cons_of_mem _ hs)
      · simp only [List.map_cons, List.nodup_cons]
        refine ⟨fun hmem => ?_, ihnodup⟩
        obtain ⟨s, hs, hname⟩ := List.mem_map.1 hmem
        exact ihseen s hs (hname ▸ List.mem_cons_self _ _)

theorem findByName_dedupNamesKeepFirst :
    ∀ (l : List SrcCol) (seen : List ColName) (t : ColName),
      findByName t (dedupNamesKeepFirst seen l) =
        if t ∈ seen then none else findByName t l
  | [], seen, t => by
    by_cases hm : t ∈ seen <;> simp [dedupNamesKeepFirst, findByName, hm]
  | d :: ds, seen, t => by
    by_cases hm : d.name ∈ seen
    · rw [dedupNamesKeepFirst, if_pos hm, findByName_dedupNamesKeepFirst ds seen t]
      by_cases hts : t ∈ seen
      · rw [if_pos hts, if_pos hts]
      · have hdt : ¬ d.name = t := fun h => hts (h ▸ hm)
        rw [if_neg hts, if_neg hts]
        simp only [findByName]
        rw [List.find?_cons_of_neg _ (by simp [hdt])]
    · rw [dedupNamesKeepFirst, if_neg hm]
      by_cases hdt : d.name = t
      · have hts : t ∉ seen := fun h => hm (hdt ▸ h)
        rw [if_neg hts]
        simp only [findByName]
        rw [List.find?_cons_of_pos _ (by simp [hdt]),
          List.find?_cons_of_pos _ (by simp [hdt])]
      · have ih := findByName_dedupNamesKeepFirst ds (d.name :: seen) t
        simp only [findByName] at ih
        simp only [findByName]
        rw [List.find?_cons_of_neg _ (by simp [hdt]), ih]
        have hmem : t ∈ d.name :: seen ↔ t ∈ seen := by
          constructor
          · intro h
            rcases List.mem_cons.1 h with h | h
            · exact absurd h.symm hdt
            · exact h
          · exact fun h => List.mem_cons_of_mem _ h
        by_cases hts : t ∈ seen
        · rw [if_pos (hmem.2 hts), if_pos hts]
        · rw [if_neg (fun h => hts (hmem.1 h)), if_neg hts,
            List.find?_cons_of_neg _ (by simp [hdt])]

theorem mem_group_iff {r : ColName} {l : List SrcCol} {c : SrcCol}
    (h : c ∈ l.filter (fun c => decide (c.name = r))) : c ∈ l ∧ c.name = r := by
  have hm := List.mem_filter.1 h
  exact ⟨hm.1, by simpa using hm.2⟩

theorem mem_selectRequired {l : List SrcCol} {c : SrcCol}
    (h : c ∈ selectRequired l) : c ∈ l ∧ c.name ∈ requiredCols := by
  obtain ⟨g, hg, hcg⟩ := List.mem_flatten.1 h
  obtain ⟨r, hr, rfl⟩ := List.mem_map.1 hg
  obtain ⟨hcl, hcr⟩ := mem_group_iff hcg
  exact ⟨hcl, hcr ▸ hr⟩

theorem find?_filter_self (p : SrcCol → Bool) :
    ∀ l : List SrcCol, (l.filter p).find? p = l.find? p
  | [] => rfl
  | a :: l => by
    rw [List.filter_cons]
    cases hp : p a with
    | true =>
      rw [if_pos rfl, List.find?_cons_of_pos _ hp, List.find?_cons_of_pos _ hp]
    | false =>
      rw [if_neg (by simp), List.find?_cons_of_neg _ (by simp [hp]),
        find?_filter_self p l]

theorem findByName_flatten_none {t : ColName} {l : List SrcCol}
    (rs : List ColName) (hnone : findByName t l = none) :
    findByName t
      ((rs.map (fun r => l.filter (fun c => decide (c.name = r)))).flatten) =
      none := by
  rw [findByName, List.find?_eq_none] at hnone ⊢
  intro c hc
  obtain ⟨g, hg, hcg⟩ := List.mem_flatten.1 hc
  obtain ⟨r, hr, rfl⟩ := List.mem_map.1 hg
  exact hnone c (List.mem_filter.1 hcg).1

theorem findByName_group_none {r t : ColName} {l : List SrcCol} (hrt : ¬ r = t) :
    findByName t (l.filter (fun c => decide (c.name = r))) = none := by
  rw [findByName, List.find?_eq_none]
  intro c hc
  obtain ⟨-, hcr⟩ := mem_group_iff hc
  simp [hcr, hrt]

theorem findByName_selectRequired {t : ColName} (l : List SrcCol) :
    ∀ rs : List ColName, t ∈ rs →
      findByName t
        ((rs.map (fun r => l.filter (fun c => decide (c.name = r)))).flatten) =
        findByName t l
  | [], ht => absurd ht (List.not_mem_nil t)
  | r :: rs, ht => by
    simp only [List.map_cons, List.flatten_cons]
    rw [findByName, List.find?_append]
    by_cases hrt : r = t
    · subst hrt
      have hg := find?_filter_self (fun c => decide (c.name = r)) l
      rw [hg]
      cases hfl : List.find? (fun c => decide (c.name = r)) l with
      | some x => rw [findByName, hfl]; rfl
      | none =>
        rw [Option.none_or]
        have hrest := findByName_flatten_none rs
          (by rw [findByName]; exact hfl)
        rw [findByName] at hrest ⊢
        rw [hrest, hfl]
    · have hts : t ∈ rs := by
        rcases List.mem_cons.1 ht with h | h
        · exact absurd h.symm hrt
        · exact h
      have hgnone := findByName_group_none (l := l) hrt
      rw [findByName] at hgnone
      rw [hgnone, Option.none_or]
      have ih := findByName_selectRequired l rs hts
      rw [findByName] at ih ⊢
      exact ih

/-- C8: the Schema Normalizer only emits canonical column names, each at
most once; every output column originates (same position identity) from a
surviving input column via the keyword mapping, so a column matching
`adj`/`dividend`/`split` never reaches the output; and for each canonical
target the output column is exactly the first (in stable column order)
surviving input column that maps to it. -/
theorem standardize_dataframe_spec (cols : List SrcCol) :
    (∀ c ∈ standardize_dataframe cols, c.name ∈ requiredCols) ∧
    ((standardize_dataframe cols).map (fun c => c.name)).Nodup ∧
    (∀ c ∈ standardize_dataframe cols, ∃ src, src ∈ cols ∧
      c.id = src.id ∧ isDroppedName src.name = false ∧
      c.name = mapTarget src.name) ∧
    ((cols.map (fun c => c.id)).Nodup →
      ∀ src ∈ cols, isDroppedName src.name = true →
        ∀ c ∈ standardize_dataframe cols, c.id ≠ src.id) ∧
    (∀ t ∈ requiredCols, findByName t (standardize_dataframe cols) =
      findByName t (renamedCols cols)) := by
  have hprov : ∀ c ∈ standardize_dataframe cols, ∃ src, src ∈ cols ∧
      c.id = src.id ∧ isDroppedName src.name = false ∧
      c.name = mapTarget src.name := by
    intro c hc
    have hsel := mem_of_mem_dedupNamesKeepFirst hc
    have hren := (mem_selectRequired hsel).1
    obtain ⟨src, hsrc, hmap⟩ := List.mem_map.1 hren
    obtain ⟨hsrcmem, hkeep⟩ := List.mem_filter.1 hsrc
    refine ⟨src, hsrcmem, ?_, by simpa using hkeep, ?_⟩
    · rw [← hmap]
    · rw [← hmap]
  refine ⟨?_, ?_, hprov, ?_, ?_⟩
  · intro c hc
    exact (mem_selectRequired (mem_of_mem_dedupNamesKeepFirst hc)).2
  · exact (dedupNamesKeepFirst_good _ []).2
  · intro hids src hsrcmem hdropped c hc hid
    obtain ⟨src', hmem', hid', hkeep', -⟩ := hprov c hc
    have : src' = src :=
      List.inj_on_of_nodup_map hids hmem' hsrcmem (hid'.symm.trans hid)
    rw [this] at hkeep'
    rw [hdropped] at hkeep'
    exact Bool.noConfusion hkeep'
  · intro t ht
    rw [standardize_dataframe, findByName_dedupNamesKeepFirst,
      if_neg (List.not_mem_nil t), selectRequired,
      findByName_selectRequired (renamedCols cols) requiredCols ht]

/-- Input columns for the C8 witness: a date column, an `Adj Close` to be
dropped, an open, and two columns both mapping to `Close`. -/
def wcolsC8 : List SrcCol :=
  [⟨0, "Date".toList⟩, ⟨1, "Adj Close".toList⟩, ⟨2, "Open".toList⟩,
    ⟨3, "Close".toList⟩, ⟨4, "close_2".toList⟩]

/-- Witness for C8 at a concrete input: the kept `Close` column is the
first of the two that map to `Close`, and the dropped `Adj Close` column's
identity (position 1) never reaches the output. -/
theorem standardize_dataframe_spec_witness :
    findByName ("Close".toList) (standardize_dataframe wcolsC8) =
        findByName ("Close".toList) (renamedCols wcolsC8) ∧
      (⟨3, "Close".toList⟩ : SrcCol).id ≠ (⟨1, "Adj Close".toList⟩ : SrcCol).id :=
  ⟨(standardize_dataframe_spec wcolsC8).2.2.2.2 ("Close".toList) (by decide),
    (standardize_dataframe_spec wcolsC8).2.2.2.1 (by decide)
      ⟨1, "Adj Close".toList⟩ (by decide) (by decide)
      ⟨3, "Close".toList⟩ (by decide)⟩

end MarketData
